import Mathlib

/-
Verification of the Node dependency-graph core of the scons repository
against its natural-language specification.

The repository ships the test suite `src/SCons/Node/NodeTests.py`; the
module under test, `SCons/Node/__init__.py`, is not part of the source
tree.  Every definition below is therefore a shallow embedding modelled
from the specification (and, where the specification is silent or
contradicted by the in-tree tests, from the concrete behaviour the tests
pin down).  Nodes are identified by natural numbers; Python lists become
Lean lists, exceptions become `Except`, and Python truthiness is made
explicit where it matters.
-/

set_option maxRecDepth 4096

namespace SCons

/-! ### Python value model (truthiness) -/

/-- Modelled from the spec: a minimal model of the Python values that flow
into attribute setters such as `set_noclean` — integers and `None` —
together with Python truthiness. -/
inductive PyVal where
  | vint : Int → PyVal
  | vnone : PyVal
deriving DecidableEq

/-- Python truthiness of a `PyVal`: an integer is truthy iff nonzero,
`None` is falsy. -/
def PyVal.truthy : PyVal → Bool
  | PyVal.vint n => decide (n ≠ 0)
  | PyVal.vnone => false

/-- Python `a and b`: returns `b` when `a` is truthy, else `a`. -/
def pyAnd (a b : PyVal) : PyVal := if a.truthy then b else a

/-- Python `a or b`: returns `a` when `a` is truthy, else `b`. -/
def pyOr (a b : PyVal) : PyVal := if a.truthy then a else b

/-! ### Edge-list elements and the deduplicating insert -/

/-- Modelled from the spec: an element of the list passed to
`add_source` / `add_dependency` / `add_ignore` is either a single node
reference or — the caller mistake the adders must reject — a nested
sequence of node references. -/
inductive Elt where
  | node : Nat → Elt
  | seq : List Nat → Elt
deriving DecidableEq

/-- Whether an input element is a nested sequence rather than a single
node reference. -/
def Elt.isSeq : Elt → Bool
  | Elt.node _ => false
  | Elt.seq _ => true

/-- Append a child to an edge list unless it is already present:
the single-insertion discipline of `_add_child`. -/
def insertChild (dest : List Nat) (c : Nat) : List Nat :=
  if c ∈ dest then dest else dest ++ [c]

/-! ### The Node record (attributes used by the claims) -/

/-- Modelled from the spec: the attributes of `SCons.Node.Node` needed
here — the three order-preserving, set-deduplicated edge lists and the
`noclean` / `precious` / `always_build` flags. -/
structure SNode where
  sources : List Nat := []
  depends : List Nat := []
  ignore : List Nat := []
  noclean : PyVal := PyVal.vint 0
  precious : PyVal := PyVal.vint 0
  always_build : PyVal := PyVal.vint 0
deriving DecidableEq

/-- Modelled from the spec: the generic helper `_add_child` underlying
all three adders.  It is the single place enforcing "no nested
sequences" (failing with an error and leaving the destination unchanged)
and "exactly-once insertion" in first-seen order. -/
def add_child (dest : List Nat) (new_children : List Elt) : Except Unit (List Nat) :=
  if new_children.any Elt.isSeq then Except.error ()
  else Except.ok (new_children.foldl
    (fun acc e => match e with
      | Elt.node c => insertChild acc c
      | Elt.seq _ => acc) dest)

/-- Modelled from the spec: `add_source` appends node references to the
set-deduplicated, order-preserving `sources` list via `_add_child`. -/
def add_source (n : SNode) (l : List Elt) : Except Unit SNode :=
  (add_child n.sources l).map (fun s => { n with sources := s })

/-- Modelled from the spec: `add_dependency` appends node references to
the set-deduplicated, order-preserving `depends` list via `_add_child`. -/
def add_dependency (n : SNode) (l : List Elt) : Except Unit SNode :=
  (add_child n.depends l).map (fun s => { n with depends := s })

/-- Modelled from the spec: `add_ignore` appends node references to the
set-deduplicated, order-preserving `ignore` list via `_add_child`. -/
def add_ignore (n : SNode) (l : List Elt) : Except Unit SNode :=
  (add_child n.ignore l).map (fun s => { n with ignore := s })

/-- The state a caller observes after an adder call: the new node on
success, the untouched original node when the adder raised. -/
def recoverNode (n : SNode) : Except Unit SNode → SNode
  | Except.ok m => m
  | Except.error _ => n

/-! ### Attribute setters -/

/-- Modelled from the spec and the in-tree test
`NodeTests.test_set_noclean`: `set_noclean` stores the normalisation
`noclean and 1 or 0` of its argument, never the raw argument. -/
def set_noclean (n : SNode) (v : PyVal) : SNode :=
  { n with noclean := pyOr (pyAnd v (PyVal.vint 1)) (PyVal.vint 0) }

/-- Modelled from the spec and the in-tree test
`NodeTests.test_set_precious`: `set_precious` stores its argument
verbatim. -/
def set_precious (n : SNode) (v : PyVal) : SNode :=
  { n with precious := v }

/-- Modelled from the spec and the in-tree test
`NodeTests.test_set_always_build`: `set_always_build` stores its
argument verbatim. -/
def set_always_build (n : SNode) (v : PyVal) : SNode :=
  { n with always_build := v }

/-! ### NodeInfo / BuildInfo records and field-level merge -/

/-- Modelled from the spec: a NodeInfo/BuildInfo record is a partial map
from field identifiers to values; a field absent from the record maps to
`none`. -/
def InfoRec : Type := Nat → Option Int

/-- Modelled from the spec: `NodeInfoBase.merge` / `BuildInfoBase.merge`
overwrite in the receiver exactly the fields present on the incoming
record and preserve fields absent from it. -/
def merge (r1 r2 : InfoRec) : InfoRec :=
  fun f => match r2 f with
    | some v => some v
    | none => r1 f

/-- The receiver record of the merge example: field 0 holds 1 and
field 1 holds 2. -/
def exRec1 : InfoRec :=
  fun f => if f = 0 then some 1 else if f = 1 then some 2 else none

/-- The incoming record of the merge example: field 1 holds 222 and
field 2 holds 333. -/
def exRec2 : InfoRec :=
  fun f => if f = 1 then some 222 else if f = 2 then some 333 else none

/-! ## Theorems about the edge adders -/

/-- Claim C6: for every node and each of the edge adders `add_source`,
`add_dependency`, `add_ignore`, adding a child already present in the
respective edge list is a no-op (after adding `[a]` and then `[a]` again
the list still contains `a` exactly once), and across successive calls
the list preserves the relative order of each element's first insertion
(each call only ever appends fresh elements at the end). -/
theorem adders_dedup_preserve_order : ∀ (n : SNode) (l : List Nat) (a : Nat),
    add_source n [Elt.node a] = Except.ok { n with sources := insertChild n.sources a }
    ∧ add_dependency n [Elt.node a] = Except.ok { n with depends := insertChild n.depends a }
    ∧ add_ignore n [Elt.node a] = Except.ok { n with ignore := insertChild n.ignore a }
    ∧ insertChild (insertChild l a) a = insertChild l a
    ∧ (a ∈ l → insertChild l a = l)
    ∧ (¬ a ∈ l → insertChild l a = l ++ [a])
    ∧ (l.Nodup → (insertChild l a).Nodup ∧ (insertChild l a).count a = 1) := by
  intro n l a
  refine ⟨?_, ?_, ?_, ?_, ?_, ?_, ?_⟩
  · simp [add_source, add_child, Elt.isSeq, Except.map]
  · simp [add_dependency, add_child, Elt.isSeq, Except.map]
  · simp [add_ignore, add_child, Elt.isSeq, Except.map]
  · by_cases h : a ∈ l
    · simp [insertChild, h]
    · simp [insertChild, h]
  · intro h; simp [insertChild, h]
  · intro h; simp [insertChild, h]
  · intro hnd
    by_cases h : a ∈ l
    · refine ⟨by simpa [insertChild, h] using hnd, ?_⟩
      simp only [insertChild, if_pos h]
      exact List.count_eq_one_of_mem hnd h
    · constructor
      · simp [insertChild, h, List.nodup_append, hnd]
      · simp [insertChild, h, List.count_append, List.count_eq_zero_of_not_mem h]

/-- Witness for C6 at concrete inputs: adding 4 to the list `[3]` keeps
it duplicate-free with 4 occurring exactly once, and adding an element
already present is the identity. -/
theorem adders_dedup_preserve_order_witness :
    ((insertChild [3] 4).Nodup ∧ (insertChild [3] 4).count 4 = 1)
    ∧ insertChild [3] 3 = [3]
    ∧ insertChild [3] 4 = [3] ++ [4] := by
  refine ⟨(adders_dedup_preserve_order {} [3] 4).2.2.2.2.2.2 (by decide),
          (adders_dedup_preserve_order {} [3] 3).2.2.2.2.1 (by decide),
          (adders_dedup_preserve_order {} [3] 4).2.2.2.2.2.1 (by decide)⟩

/-- Claim C7: for every input list containing an element that is itself
a sequence of nodes, `add_source`, `add_dependency` and `add_ignore`
each raise an error, and the state the caller observes afterwards is the
node exactly as it was before the call (atomicity on rejection). -/
theorem adders_reject_nested_input : ∀ (n : SNode) (l : List Elt),
    (∃ e ∈ l, Elt.isSeq e = true) →
    add_source n l = Except.error ()
    ∧ add_dependency n l = Except.error ()
    ∧ add_ignore n l = Except.error ()
    ∧ recoverNode n (add_source n l) = n
    ∧ recoverNode n (add_dependency n l) = n
    ∧ recoverNode n (add_ignore n l) = n := by
  intro n l h
  have hany : l.any Elt.isSeq = true := by
    rcases h with ⟨e, he, hseq⟩
    exact List.any_eq_true.mpr ⟨e, he, hseq⟩
  have hs : add_source n l = Except.error () := by
    simp [add_source, add_child, hany, Except.map]
  have hd : add_dependency n l = Except.error () := by
    simp [add_dependency, add_child, hany, Except.map]
  have hi : add_ignore n l = Except.error () := by
    simp [add_ignore, add_child, hany, Except.map]
  exact ⟨hs, hd, hi, by simp [hs, recoverNode], by simp [hd, recoverNode],
         by simp [hi, recoverNode]⟩

/-- Witness for C7: passing the nested sequence `[[5, 6]]` to each adder
of a node with sources `[1]` raises, and the observed node still has
sources `[1]`. -/
theorem adders_reject_nested_input_witness :
    add_source { sources := [1] } [Elt.seq [5, 6]] = Except.error ()
    ∧ recoverNode { sources := [1] } (add_source { sources := [1] } [Elt.seq [5, 6]])
        = { sources := [1] } := by
  have h := adders_reject_nested_input { sources := [1] } [Elt.seq [5, 6]]
    ⟨Elt.seq [5, 6], by simp, rfl⟩
  exact ⟨h.1, h.2.2.2.1⟩

/-! ## Theorems about record merging -/

/-- Claim C9: merging one NodeInfo or BuildInfo record `r2` into another
record `r1` overwrites in `r1` exactly the fields present on `r2` and
leaves every field absent from `r2` unchanged; in particular merging a
record with only fields `{b: 222, c: 333}` into one holding
`{a: 1, b: 2}` yields `{a: 1, b: 222, c: 333}` (fields a, b, c are
encoded as the identifiers 0, 1, 2). -/
theorem merge_overwrites_present_preserves_absent : ∀ (r1 r2 : InfoRec) (f : Nat),
    (∀ v, r2 f = some v → merge r1 r2 f = some v)
    ∧ (r2 f = none → merge r1 r2 f = r1 f)
    ∧ merge exRec1 exRec2 0 = some 1
    ∧ merge exRec1 exRec2 1 = some 222
    ∧ merge exRec1 exRec2 2 = some 333 := by
  intro r1 r2 f
  refine ⟨?_, ?_, by decide, by decide, by decide⟩
  · intro v h; simp [merge, h]
  · intro h; simp [merge, h]

/-- Witness for C9: on the concrete example records, field 1 is present
on the incoming record and is overwritten to its incoming value, while
field 0 is absent from the incoming record and keeps its old value. -/
theorem merge_overwrites_present_preserves_absent_witness :
    merge exRec1 exRec2 1 = some 222 ∧ merge exRec1 exRec2 0 = exRec1 0 :=
  ⟨(merge_overwrites_present_preserves_absent exRec1 exRec2 1).1 222 (by decide),
   (merge_overwrites_present_preserves_absent exRec1 exRec2 0).2.1 (by decide)⟩

/-! ## Theorems about the attribute setters -/

/-- Claim C10: for every argument `v`, after `set_noclean v` the node's
`noclean` attribute is exactly 1 when `v` is truthy and exactly 0 when
`v` is falsy (`set_noclean 7` stores 1, `set_noclean None` stores 0) —
the raw argument is never stored — unlike `set_precious` and
`set_always_build`, which store their argument verbatim. -/
theorem set_noclean_normalizes : ∀ (n : SNode) (v : PyVal),
    (v.truthy = true → (set_noclean n v).noclean = PyVal.vint 1)
    ∧ (v.truthy = false → (set_noclean n v).noclean = PyVal.vint 0)
    ∧ (set_noclean n (PyVal.vint 7)).noclean = PyVal.vint 1
    ∧ (set_noclean n PyVal.vnone).noclean = PyVal.vint 0
    ∧ (set_precious n v).precious = v
    ∧ (set_always_build n v).always_build = v := by
  intro n v
  refine ⟨?_, ?_, rfl, rfl, rfl, rfl⟩
  · intro h
    simp only [set_noclean, pyAnd, pyOr, h, if_true]
    decide
  · intro h; simp [set_noclean, pyAnd, pyOr, h]

/-- Witness for C10: the truthy integer 7 is stored as 1 and the falsy
`None` is stored as 0, via the general normalisation statement. -/
theorem set_noclean_normalizes_witness :
    (set_noclean {} (PyVal.vint 7)).noclean = PyVal.vint 1
    ∧ (set_noclean {} PyVal.vnone).noclean = PyVal.vint 0 :=
  ⟨(set_noclean_normalizes {} (PyVal.vint 7)).1 (by decide),
   (set_noclean_normalizes {} PyVal.vnone).2.1 (by decide)⟩

/-! ### Node states and the children-up-to-date check -/

/-- Node state constant: freshly created, never scheduled. -/
def no_state : Nat := 0

/-- Node state constant: scheduled but not yet executing. -/
def pending : Nat := 1

/-- Node state constant: build action currently running. -/
def executing : Nat := 2

/-- Node state constant: determined current, nothing to do. -/
def up_to_date : Nat := 3

/-- Node state constant: freshly rebuilt in this run. -/
def executed : Nat := 4

/-- Node state constant: build failed. -/
def failed : Nat := 5

/-- One step of the child-state accumulation inside
`children_are_up_to_date`: a nonzero child state replaces the
accumulator when the accumulator is zero or smaller. -/
def childState (st s : Nat) : Nat :=
  if s ≠ 0 ∧ (st = 0 ∨ st < s) then s else st

/-- The maximal nonzero child state, 0 if every child is in `no_state`:
the value the loop in `children_are_up_to_date` accumulates. -/
def kidMaxState (states : List Nat) : Nat := states.foldl childState 0

/-- Modelled from the spec: `children_are_up_to_date` of
`SCons/Node/__init__.py`, which is absent from the source tree.  The
spec sentence conflicts with the in-tree test
`NodeTests.test_children_are_up_to_date` (a child in `no_state` leaves
the check true), so the model follows the behaviour the test pins down:
the check is false when `always_build` is set, and otherwise true
exactly when the maximal nonzero child state is 0 or `up_to_date`. -/
def children_are_up_to_date (always_build : Bool) (childStates : List Nat) : Bool :=
  if always_build then false
  else decide (kidMaxState childStates = no_state ∨ kidMaxState childStates = up_to_date)

/-- The accumulator of the child-state loop never decreases. -/
theorem le_childState (st s : Nat) : st ≤ childState st s := by
  unfold childState; split <;> omega

/-- The accumulator of the child-state loop never decreases across a
whole list. -/
theorem le_foldl_childState : ∀ (l : List Nat) (st : Nat), st ≤ l.foldl childState st := by
  intro l
  induction l with
  | nil => intro st; exact Nat.le_refl st
  | cons a t ih =>
    intro st
    exact Nat.le_trans (le_childState st a) (ih (childState st a))

/-- Any nonzero state occurring in the list bounds the accumulated
child state from below. -/
theorem mem_le_foldl_childState :
    ∀ (l : List Nat) (st s : Nat), s ∈ l → s ≠ 0 → s ≤ l.foldl childState st := by
  intro l
  induction l with
  | nil => intro st s h; cases h
  | cons a t ih =>
    intro st s hmem hs
    rcases List.mem_cons.mp hmem with h | h
    · subst h
      have h1 : s ≤ childState st s := by unfold childState; split <;> omega
      exact Nat.le_trans h1 (le_foldl_childState t (childState st s))
    · exact ih (childState st a) s h hs

/-- Counterexample to claim C3: a child whose state is `no_state`
(strictly earlier than `up_to_date`) does not make
`children_are_up_to_date` false, and neither does a `pending` child
when a sibling is `up_to_date` — the check is true at both inputs,
where the claim demands false. -/
theorem children_are_up_to_date_no_state_counterexample :
    children_are_up_to_date false [no_state] = true
    ∧ children_are_up_to_date false [pending, up_to_date] = true
    ∧ no_state < up_to_date ∧ pending < up_to_date := by decide

/-- Claim C3 (amended): `children_are_up_to_date` is false
unconditionally once `always_build` is set, false whenever some child
is in state `executed` (or `failed`), and otherwise true exactly when
the maximal nonzero child state is `no_state`-zero or `up_to_date` —
so `pending`/`executing` children falsify it only when no child holds a
higher state, and `no_state` children never falsify it. -/
theorem children_are_up_to_date_correct : ∀ (ab : Bool) (states : List Nat),
    (ab = true → children_are_up_to_date ab states = false)
    ∧ (executed ∈ states → children_are_up_to_date ab states = false)
    ∧ (failed ∈ states → children_are_up_to_date ab states = false)
    ∧ (children_are_up_to_date ab states = true ↔
        ab = false ∧ (kidMaxState states = no_state ∨ kidMaxState states = up_to_date)) := by
  intro ab states
  refine ⟨?_, ?_, ?_, ?_⟩
  · intro h; simp [children_are_up_to_date, h]
  · intro hmem
    have h4 : executed ≤ kidMaxState states :=
      mem_le_foldl_childState states 0 executed hmem (by decide)
    cases ab
    · have hred : children_are_up_to_date false states
          = decide (kidMaxState states = no_state ∨ kidMaxState states = up_to_date) := rfl
      rw [hred, decide_eq_false_iff_not, not_or]
      unfold executed at h4
      unfold no_state up_to_date
      omega
    · simp [children_are_up_to_date]
  · intro hmem
    have h5 : failed ≤ kidMaxState states :=
      mem_le_foldl_childState states 0 failed hmem (by decide)
    cases ab
    · have hred : children_are_up_to_date false states
          = decide (kidMaxState states = no_state ∨ kidMaxState states = up_to_date) := rfl
      rw [hred, decide_eq_false_iff_not, not_or]
      unfold failed at h5
      unfold no_state up_to_date
      omega
    · simp [children_are_up_to_date]
  · cases ab <;> simp [children_are_up_to_date]

/-- Witness for C3 (amended): with `always_build` clear, a child in
`executed` state falsifies the check, and setting `always_build`
falsifies it outright. -/
theorem children_are_up_to_date_correct_witness :
    children_are_up_to_date false [executed] = false
    ∧ children_are_up_to_date true [up_to_date] = false :=
  ⟨(children_are_up_to_date_correct false [executed]).2.1 (by decide),
   (children_are_up_to_date_correct true [up_to_date]).1 rfl⟩

/-! ### prepare() and missing dependencies -/

/-- Modelled from the spec: the attributes of an implicit child that
`prepare` consults — whether it has a builder, is a side effect, and
whether it exists locally or in a repository. -/
structure PChild where
  has_builder : Bool
  side_effect : Bool
  rexists : Bool
deriving DecidableEq

/-- Modelled from the spec: a node is derived when it has a builder or
is marked as a side effect. -/
def is_derived (c : PChild) : Bool := c.has_builder || c.side_effect

/-- Modelled from the spec: an implicit child is missing when it is not
derived (so in particular has no builder) and does not exist locally or
in a repository. -/
def missing (c : PChild) : Bool := !is_derived c && !c.rexists

/-- Modelled from the spec: `prepare` is the pre-build readiness check.
It runs before any action: scanning the implicit children, it raises a
stop-class error on the first missing one and completes otherwise. -/
def prepare (implicit : List PChild) : Except Unit Unit :=
  match implicit.find? missing with
  | some _ => Except.error ()
  | none => Except.ok ()

/-- Claim C8: `prepare` raises a stop-class error iff some implicit
child simultaneously has no builder, does not exist locally or in a
repository, and is not derived; if every implicit child has a builder,
or exists, or is derived, `prepare` completes without raising.  The
check is modelled as a pure pass separate from build execution, so the
error precedes any action. -/
theorem prepare_stop_error_iff : ∀ (implicit : List PChild),
    ((∃ c ∈ implicit, c.has_builder = false ∧ c.rexists = false ∧ is_derived c = false)
      ↔ prepare implicit = Except.error ())
    ∧ ((∀ c ∈ implicit, c.has_builder = true ∨ c.rexists = true ∨ is_derived c = true)
      → prepare implicit = Except.ok ()) := by
  intro implicit
  have hmiss : ∀ c : PChild, missing c = true ↔ (is_derived c = false ∧ c.rexists = false) := by
    intro c
    simp [missing]
  cases hfind : implicit.find? missing with
  | none =>
    have hall := List.find?_eq_none.mp hfind
    constructor
    · constructor
      · rintro ⟨c, hc, _, hrex, hder⟩
        exact absurd ((hmiss c).mpr ⟨hder, hrex⟩) (by simpa using hall c hc)
      · intro h
        simp [prepare, hfind] at h
    · intro _; simp [prepare, hfind]
  | some c =>
    have hcmem : c ∈ implicit := List.mem_of_find?_eq_some hfind
    have hcmiss : missing c = true := List.find?_some hfind
    have hder : is_derived c = false := ((hmiss c).mp hcmiss).1
    have hrex : c.rexists = false := ((hmiss c).mp hcmiss).2
    have hb : c.has_builder = false := by
      have := hder
      simp [is_derived] at this
      exact this.1
    constructor
    · constructor
      · intro _; simp [prepare, hfind]
      · intro _; exact ⟨c, hcmem, hb, hrex, hder⟩
    · intro hok
      rcases hok c hcmem with h | h | h
      · rw [hb] at h; cases h
      · rw [hrex] at h; cases h
      · rw [hder] at h; cases h

/-- Witness for C8: a sole implicit child with a builder lets `prepare`
complete, and a sole builderless, non-existing, non-derived child makes
it raise the stop error. -/
theorem prepare_stop_error_iff_witness :
    prepare [⟨true, false, false⟩] = Except.ok ()
    ∧ prepare [⟨false, false, false⟩] = Except.error () :=
  ⟨(prepare_stop_error_iff [⟨true, false, false⟩]).2 (by decide),
   (prepare_stop_error_iff [⟨false, false, false⟩]).1.mp
     ⟨⟨false, false, false⟩, by simp, rfl, rfl, rfl⟩⟩

/-! ### Implicit-dependency scanning -/

/-- Modelled from the spec: the scanner contract consumed by
`get_implicit_deps` — a per-node include scan (`get_found_includes`)
and the `recurse_nodes` hook that selects which freshly discovered
candidates to scan recursively. -/
structure ScannerM where
  found : Nat → List Nat
  recurse : List Nat → List Nat

/-- Modelled from the spec: the worklist loop of `get_implicit_deps`.
Each dequeued node is scanned; discovered nodes already seen are
dropped, the fresh ones are appended to the result in discovery order,
marked seen, and handed to `recurse_nodes` to decide which of them join
the worklist.  Fuel bounds the number of loop iterations. -/
def gidLoop (s : ScannerM) : Nat → List Nat → List Nat → List Nat → List Nat
  | 0, _, _, deps => deps
  | _ + 1, [], _, deps => deps
  | fuel + 1, node :: rest, seen, deps =>
    if ((s.found node).filter (fun x => decide (¬ x ∈ seen))).isEmpty then
      gidLoop s fuel rest seen deps
    else
      gidLoop s fuel
        (rest ++ s.recurse ((s.found node).filter (fun x => decide (¬ x ∈ seen))))
        (seen ++ (s.found node).filter (fun x => decide (¬ x ∈ seen)))
        (deps ++ (s.found node).filter (fun x => decide (¬ x ∈ seen)))

/-- Modelled from the spec: `get_implicit_deps` seeds the worklist and
the seen set with the scanned node itself and returns the accumulated
deduplicated dependency list. -/
def get_implicit_deps (s : ScannerM) (fuel : Nat) (node : Nat) : List Nat :=
  gidLoop s fuel [node] [node] []

/-- An empty worklist returns the accumulated dependencies no matter
the fuel. -/
theorem gidLoop_nil (s : ScannerM) :
    ∀ (fuel : Nat) (seen deps : List Nat), gidLoop s fuel [] seen deps = deps := by
  intro fuel seen deps
  cases fuel <;> simp [gidLoop]

/-- The scan result never repeats a node: the accumulated list stays
duplicate-free whenever it is covered by the seen set, because each
extension is filtered against that set. -/
theorem gidLoop_nodup (s : ScannerM) (hfound : ∀ n, (s.found n).Nodup) :
    ∀ (fuel : Nat) (queue seen deps : List Nat),
      deps.Nodup → (∀ x ∈ deps, x ∈ seen) → (gidLoop s fuel queue seen deps).Nodup := by
  intro fuel
  induction fuel with
  | zero => intro _ _ deps hd _; simpa [gidLoop] using hd
  | succ f ih =>
    intro queue seen deps hd hsub
    match queue with
    | [] => simpa [gidLoop] using hd
    | node :: rest =>
      simp only [gidLoop]
      split
      · exact ih rest seen deps hd hsub
      · apply ih
        · refine List.Nodup.append hd ((hfound node).filter _) ?_
          intro a ha hmem
          have : ¬ a ∈ seen := by
            have := List.mem_filter.mp hmem
            simpa using this.2
          exact this (hsub a ha)
        · intro x hx
          rcases List.mem_append.mp hx with h | h
          · exact List.mem_append.mpr (Or.inl (hsub x h))
          · exact List.mem_append.mpr (Or.inr h)

/-- The include map of the diamond scan exercised by the test: the seed
0 discovers 1 and 2, both of which reference the shared descendants 11
and 12, and 12 references 13. -/
def diamondFound : Nat → List Nat
  | 0 => [1, 2]
  | 1 => [11, 12]
  | 2 => [11, 12]
  | 12 => [13]
  | _ => []

/-- The diamond include map extended with a back reference 11 → 12,
reaching node 12 through yet another path. -/
def diamondFound2 : Nat → List Nat
  | 0 => [1, 2]
  | 1 => [11, 12]
  | 2 => [11, 12]
  | 11 => [12]
  | 12 => [13]
  | _ => []

/-- The diamond scanner with the default recurse-everything hook. -/
def diamondScanner : ScannerM := ⟨diamondFound, fun l => l⟩

/-- The extended diamond scanner with the default recurse-everything
hook. -/
def diamondScanner2 : ScannerM := ⟨diamondFound2, fun l => l⟩

/-- The extended diamond scanner with a `recurse_nodes` hook that
filters node 12 out of the recursion candidates. -/
def noFffScanner : ScannerM := ⟨diamondFound2, fun l => l.filter (fun x => decide (x ≠ 12))⟩

/-- Each include list of the diamond map is duplicate-free. -/
theorem diamondFound_nodup : ∀ n, (diamondFound n).Nodup := by
  intro n
  unfold diamondFound
  split <;> decide

/-- Each include list of the extended diamond map is duplicate-free. -/
theorem diamondFound2_nodup : ∀ n, (diamondFound2 n).Nodup := by
  intro n
  unfold diamondFound2
  split <;> decide

/-- Claim C4: on a scanner include graph containing a diamond, the scan
returns each reachable node at most once (the result is duplicate-free
whenever each individual include list is), in first-discovery order;
on the concrete diamond of the test the result is exactly
`[1, 2, 11, 12, 13]`, unchanged when a second sharing path 11 → 12 is
added, and — the scan being a pure function of the scanner graph —
repeated scans yield the identical sequence. -/
theorem get_implicit_deps_dedup_order :
    (∀ (s : ScannerM) (fuel root : Nat),
      (∀ n, (s.found n).Nodup) → (get_implicit_deps s fuel root).Nodup)
    ∧ get_implicit_deps diamondScanner 20 0 = [1, 2, 11, 12, 13]
    ∧ get_implicit_deps diamondScanner2 20 0 = [1, 2, 11, 12, 13] := by
  refine ⟨?_, by decide, by decide⟩
  intro s fuel root h
  exact gidLoop_nodup s h fuel [root] [root] [] (by simp) (by simp)

/-- Witness for C4: the concrete diamond scan result is duplicate-free,
obtained from the general statement at the diamond scanner. -/
theorem get_implicit_deps_dedup_order_witness :
    (get_implicit_deps diamondScanner 20 0).Nodup :=
  get_implicit_deps_dedup_order.1 diamondScanner 20 0 diamondFound_nodup

/-- Claim C5: a `recurse_nodes` hook that returns the empty list stops
recursion entirely, leaving exactly the seed node's directly scanned
includes; and the test's filtering hook (excluding node 12) excludes
node 12's entire subtree, so node 13 never appears. -/
theorem recurse_nodes_controls_recursion :
    (∀ (found : Nat → List Nat) (seed fuel : Nat), 1 ≤ fuel →
      get_implicit_deps ⟨found, fun _ => []⟩ fuel seed
        = (found seed).filter (fun x => decide (¬ x ∈ [seed])))
    ∧ get_implicit_deps noFffScanner 20 0 = [1, 2, 11, 12]
    ∧ ¬ 13 ∈ get_implicit_deps noFffScanner 20 0 := by
  refine ⟨?_, by decide, by decide⟩
  intro found seed fuel hf
  cases fuel with
  | zero => exact absurd hf (by decide)
  | succ f =>
    show gidLoop ⟨found, fun _ => []⟩ (f + 1) [seed] [seed] [] = _
    simp only [gidLoop]
    split
    · rename_i hemp
      rw [gidLoop_nil]
      exact (List.isEmpty_iff.mp hemp).symm
    · simp only [List.nil_append]
      rw [gidLoop_nil]

/-- Witness for C5: with the always-empty `recurse_nodes` hook on the
extended diamond include map, the scan of seed 0 returns exactly the
direct includes of 0. -/
theorem recurse_nodes_controls_recursion_witness :
    get_implicit_deps ⟨diamondFound2, fun _ => []⟩ 20 0
      = (diamondFound2 0).filter (fun x => decide (¬ x ∈ [0])) :=
  recurse_nodes_controls_recursion.1 diamondFound2 0 20 (by decide)

/-! ### The Node graph and the Walker -/

/-- Modelled from the spec: a finite Node graph.  Nodes are identified
by naturals below `n`; each node carries its four edge lists. -/
structure Graph where
  n : Nat
  sources : Nat → List Nat
  depends : Nat → List Nat
  implicit : Nat → List Nat
  ignore : Nat → List Nat

/-- Modelled from the spec: `children()` returns
`sources + depends + implicit`, minus anything in `ignore`,
deduplicated, in (sources, depends, implicit) order. -/
def children (g : Graph) (x : Nat) : List Nat :=
  (((g.sources x ++ g.depends x) ++ g.implicit x).filter
    (fun k => decide (¬ k ∈ g.ignore x))).foldl insertChild []

/-- A Walker stack frame: a node together with its not-yet-visited
children (the `wkids` attribute). -/
structure Frame where
  node : Nat
  wkids : List Nat
deriving DecidableEq

/-- Modelled from the spec: the Walker traversal state — the explicit
stack of frames (head is the top), the `history` of nodes already fully
emitted in emission order, and the record of nodes on which the
caller-supplied `cycle_func` has been invoked, in invocation order. -/
structure WalkerState where
  stack : List Frame
  history : List Nat
  cycles : List Nat
deriving DecidableEq

/-- The nodes currently on the active stack, top first. -/
def stackNodes (st : WalkerState) : List Nat := st.stack.map Frame.node

/-- Outcome of one elementary Walker transition. -/
inductive StepRes where
  | done
  | emit (node : Nat) (st : WalkerState)
  | cont (st : WalkerState)

/-- Modelled from the spec: one elementary transition of `get_next`.
With an empty stack the traversal is done.  A node whose children are
exhausted is popped, appended to history and emitted.  Otherwise the
next child is examined: a child already on the active stack triggers
`cycle_func` and the edge is treated as satisfied; a child already
fully emitted (in history) is skipped, so a diamond-shaped dependency
is not re-emitted; a fresh child is pushed with its own children. -/
def step (g : Graph) : WalkerState → StepRes
  | ⟨[], _, _⟩ => StepRes.done
  | ⟨⟨n, []⟩ :: rest, hist, cyc⟩ => StepRes.emit n ⟨rest, hist ++ [n], cyc⟩
  | ⟨⟨n, k :: ks⟩ :: rest, hist, cyc⟩ =>
    if k ∈ (Frame.mk n (k :: ks) :: rest).map Frame.node then
      StepRes.cont ⟨⟨n, ks⟩ :: rest, hist, cyc ++ [k]⟩
    else if k ∈ hist then
      StepRes.cont ⟨⟨n, ks⟩ :: rest, hist, cyc⟩
    else
      StepRes.cont ⟨⟨k, children g k⟩ :: ⟨n, ks⟩ :: rest, hist, cyc⟩

/-- Modelled from the spec: `get_next()` advances the traversal until a
node is emitted, returning the node and the new state, or the no-node
sentinel once the stack is empty.  Fuel bounds the internal descent
loop. -/
def get_next (g : Graph) : Nat → WalkerState → Option Nat × WalkerState
  | 0, st => (none, st)
  | fuel + 1, st =>
    match step g st with
    | StepRes.done => (none, st)
    | StepRes.emit m st' => (some m, st')
    | StepRes.cont st' => get_next g fuel st'

/-- Run the Walker for at most `fuel` elementary transitions; the
emitted nodes accumulate in the state's history in emission order. -/
def runWalker (g : Graph) : Nat → WalkerState → WalkerState
  | 0, st => st
  | fuel + 1, st =>
    match step g st with
    | StepRes.done => st
    | StepRes.emit _ st' => runWalker g fuel st'
    | StepRes.cont st' => runWalker g fuel st'

/-- Modelled from the spec: `is_done()` is true once no further nodes
remain. -/
def is_done (st : WalkerState) : Bool := st.stack.isEmpty

/-- Modelled from the spec: a Walker constructed on a node starts with
that node and its children as the only stack frame, with empty history. -/
def initWalker (g : Graph) (root : Nat) : WalkerState :=
  ⟨[⟨root, children g root⟩], [], []⟩

/-- The results of `count` successive `get_next()` calls, each given
`fuel` for its internal descent. -/
def emitSeq (g : Graph) (fuel : Nat) : Nat → WalkerState → List (Option Nat)
  | 0, _ => []
  | count + 1, st =>
    (get_next g fuel st).1 :: emitSeq g fuel count (get_next g fuel st).2

/-- The `sources` edges of the Walker test graph:
`n1.sources = [n2, n3]`, `n2.sources = [n4, n5]`. -/
def srcMap : Nat → List Nat
  | 1 => [2, 3]
  | 2 => [4, 5]
  | _ => []

/-- The `depends` edges of the Walker test graph:
`n3.depends = [n6, n7]`. -/
def depMap : Nat → List Nat
  | 3 => [6, 7]
  | _ => []

/-- The acyclic Walker test graph on nodes 1..7. -/
def g1 : Graph := ⟨8, srcMap, depMap, fun _ => [], fun _ => []⟩

/-- The `depends` edges with the introduced cycle:
`n3.depends = [n6, n7]`, `n7.depends = [n8]`, `n8.depends = [n3]`. -/
def depMapCyc : Nat → List Nat
  | 3 => [6, 7]
  | 7 => [8]
  | 8 => [3]
  | _ => []

/-- The cyclic Walker test graph on nodes 1..8. -/
def gcyc : Graph := ⟨9, srcMap, depMapCyc, fun _ => [], fun _ => []⟩

/-- Claim C1: on the graph with `n1.sources = [n2, n3]`,
`n2.sources = [n4, n5]`, `n3.depends = [n6, n7]`, a Walker constructed
on `n1` emits, via successive `get_next()` calls, exactly
`n4, n5, n2, n6, n7, n3, n1` followed by the no-node sentinel; every
child is emitted before its parent (sources before depends). -/
theorem walker_postorder_emission :
    emitSeq g1 32 8 (initWalker g1 1)
      = [some 4, some 5, some 2, some 6, some 7, some 3, some 1, none]
    ∧ is_done (runWalker g1 32 (initWalker g1 1)) = true
    ∧ (runWalker g1 32 (initWalker g1 1)).history = [4, 5, 2, 6, 7, 3, 1]
    ∧ (∀ p ∈ (runWalker g1 32 (initWalker g1 1)).history,
        ∀ c ∈ children g1 p,
          (runWalker g1 32 (initWalker g1 1)).history.indexOf c
            < (runWalker g1 32 (initWalker g1 1)).history.indexOf p) := by decide

/-! ### Termination and enumeration of the Walker -/

/-- Potential of a node that has not been pushed yet: pushing it costs
one frame plus one unit per child edge. -/
def pot (g : Graph) (x : Nat) : Nat := 1 + (children g x).length

/-- Total potential of the nodes below the graph bound that are neither
on the active stack nor already emitted. -/
def freshPot (g : Graph) (st : WalkerState) : Nat :=
  Finset.sum (Finset.range g.n)
    (fun x => if x ∈ stackNodes st ∨ x ∈ st.history then 0 else pot g x)

/-- Remaining work carried by the stack itself: one unit per frame plus
one per unvisited child. -/
def stackWeight (st : WalkerState) : Nat :=
  (st.stack.map (fun f => 1 + f.wkids.length)).sum

/-- The Walker termination measure: every elementary transition
strictly decreases it. -/
def wMeasure (g : Graph) (st : WalkerState) : Nat := freshPot g st + stackWeight st

/-- The Walker invariant: all stack nodes and their unvisited children
stay below the graph bound; a node occurs at most once across history
and stack; the children of emitted nodes and the consumed children of
stack frames are accounted for in history or on the stack; the root is
accounted for. -/
structure WInv (g : Graph) (root : Nat) (st : WalkerState) : Prop where
  kidsLt : ∀ f ∈ st.stack, f.node < g.n ∧ ∀ k ∈ f.wkids, k < g.n
  nodup : (st.history ++ stackNodes st).Nodup
  hclosed : ∀ x ∈ st.history, ∀ c ∈ children g x, c ∈ st.history ∨ c ∈ stackNodes st
  fclosed : ∀ f ∈ st.stack, ∀ c ∈ children g f.node,
    c ∈ f.wkids ∨ c ∈ st.history ∨ c ∈ stackNodes st
  rootIn : root ∈ st.history ∨ root ∈ stackNodes st

/-- A Walker freshly constructed on a root below the graph bound
satisfies the invariant. -/
theorem initWalker_inv (g : Graph) (root : Nat)
    (hwf : ∀ x, x < g.n → ∀ c ∈ children g x, c < g.n) (hroot : root < g.n) :
    WInv g root (initWalker g root) := by
  refine ⟨?_, ?_, ?_, ?_, ?_⟩
  · intro f hf
    have : f = ⟨root, children g root⟩ := by simpa [initWalker] using hf
    subst this
    exact ⟨hroot, hwf root hroot⟩
  · simp [initWalker, stackNodes]
  · intro x hx
    simp [initWalker] at hx
  · intro f hf c hc
    have : f = ⟨root, children g root⟩ := by simpa [initWalker] using hf
    subst this
    exact Or.inl hc
  · right
    simp [initWalker, stackNodes]

/-- Consuming the next child of the top frame without pushing (the
cycle and the already-emitted cases) preserves the invariant and
strictly decreases the measure; the consumed child must already be
accounted for on the stack or in history. -/
theorem shrink_preserves (g : Graph) (root n : Nat) (ks : List Nat) (k : Nat)
    (rest : List Frame) (hist cyc cyc' : List Nat)
    (hinv : WInv g root ⟨⟨n, k :: ks⟩ :: rest, hist, cyc⟩)
    (hk : k ∈ n :: rest.map Frame.node ∨ k ∈ hist) :
    WInv g root ⟨⟨n, ks⟩ :: rest, hist, cyc'⟩
    ∧ wMeasure g ⟨⟨n, ks⟩ :: rest, hist, cyc'⟩
        < wMeasure g ⟨⟨n, k :: ks⟩ :: rest, hist, cyc⟩ := by
  have hhead := hinv.kidsLt ⟨n, k :: ks⟩ (List.mem_cons_self _ _)
  constructor
  · refine ⟨?_, ?_, ?_, ?_, ?_⟩
    · intro f hf
      rcases List.mem_cons.mp hf with h | h
      · subst h
        exact ⟨hhead.1, fun k' hk' => hhead.2 k' (List.mem_cons_of_mem _ hk')⟩
      · exact hinv.kidsLt f (List.mem_cons_of_mem _ h)
    · simpa [stackNodes] using hinv.nodup
    · intro x hx c hc
      simpa [stackNodes] using hinv.hclosed x hx c hc
    · intro f hf c hc
      rcases List.mem_cons.mp hf with h | h
      · subst h
        rcases hinv.fclosed ⟨n, k :: ks⟩ (List.mem_cons_self _ _) c hc with h1 | h1 | h1
        · rcases List.mem_cons.mp h1 with h2 | h2
          · subst h2
            rcases hk with h3 | h3
            · exact Or.inr (Or.inr (by simpa [stackNodes] using h3))
            · exact Or.inr (Or.inl h3)
          · exact Or.inl h2
        · exact Or.inr (Or.inl h1)
        · exact Or.inr (Or.inr (by simpa [stackNodes] using h1))
      · rcases hinv.fclosed f (List.mem_cons_of_mem _ h) c hc with h1 | h1 | h1
        · exact Or.inl h1
        · exact Or.inr (Or.inl h1)
        · exact Or.inr (Or.inr (by simpa [stackNodes] using h1))
    · rcases hinv.rootIn with h | h
      · exact Or.inl h
      · exact Or.inr (by simpa [stackNodes] using h)
  · have hfp : freshPot g ⟨⟨n, ks⟩ :: rest, hist, cyc'⟩
        = freshPot g ⟨⟨n, k :: ks⟩ :: rest, hist, cyc⟩ := rfl
    have hsw : stackWeight ⟨⟨n, k :: ks⟩ :: rest, hist, cyc⟩
        = stackWeight ⟨⟨n, ks⟩ :: rest, hist, cyc'⟩ + 1 := by
      simp [stackWeight]
      omega
    unfold wMeasure
    omega

/-- Pushing a fresh child onto the stack preserves the invariant and
strictly decreases the measure. -/
theorem push_preserves (g : Graph) (root n : Nat) (ks : List Nat) (k : Nat)
    (rest : List Frame) (hist cyc : List Nat)
    (hwf : ∀ x, x < g.n → ∀ c ∈ children g x, c < g.n)
    (hinv : WInv g root ⟨⟨n, k :: ks⟩ :: rest, hist, cyc⟩)
    (hks : ¬ k ∈ n :: rest.map Frame.node)
    (hkh : ¬ k ∈ hist) :
    WInv g root ⟨⟨k, children g k⟩ :: ⟨n, ks⟩ :: rest, hist, cyc⟩
    ∧ wMeasure g ⟨⟨k, children g k⟩ :: ⟨n, ks⟩ :: rest, hist, cyc⟩
        < wMeasure g ⟨⟨n, k :: ks⟩ :: rest, hist, cyc⟩ := by
  have hhead := hinv.kidsLt ⟨n, k :: ks⟩ (List.mem_cons_self _ _)
  have hklt : k < g.n := hhead.2 k (List.mem_cons_self _ _)
  constructor
  · refine ⟨?_, ?_, ?_, ?_, ?_⟩
    · intro f hf
      rcases List.mem_cons.mp hf with h | h
      · subst h
        exact ⟨hklt, fun c hc => hwf k hklt c hc⟩
      · rcases List.mem_cons.mp h with h2 | h2
        · subst h2
          exact ⟨hhead.1, fun k' hk' => hhead.2 k' (List.mem_cons_of_mem _ hk')⟩
        · exact hinv.kidsLt f (List.mem_cons_of_mem _ h2)
    · have hold : (hist ++ n :: rest.map Frame.node).Nodup := by
        simpa [stackNodes] using hinv.nodup
      have hnotin : ¬ k ∈ hist ++ n :: rest.map Frame.node := by
        intro hmem
        rcases List.mem_append.mp hmem with h | h
        · exact hkh h
        · exact hks h
      simp only [stackNodes, List.map_cons]
      rw [List.nodup_middle]
      exact List.nodup_cons.mpr ⟨hnotin, hold⟩
    · intro x hx c hc
      rcases hinv.hclosed x hx c hc with h | h
      · exact Or.inl h
      · refine Or.inr ?_
        have h4 : c ∈ n :: rest.map Frame.node := by simpa [stackNodes] using h
        show c ∈ k :: n :: List.map Frame.node rest
        exact List.mem_cons_of_mem _ h4
    · intro f hf c hc
      rcases List.mem_cons.mp hf with h | h
      · subst h
        exact Or.inl hc
      · rcases List.mem_cons.mp h with h2 | h2
        · subst h2
          rcases hinv.fclosed ⟨n, k :: ks⟩ (List.mem_cons_self _ _) c hc with h1 | h1 | h1
          · rcases List.mem_cons.mp h1 with h3 | h3
            · subst h3
              exact Or.inr (Or.inr (by simp [stackNodes]))
            · exact Or.inl h3
          · exact Or.inr (Or.inl h1)
          · refine Or.inr (Or.inr ?_)
            have h4 : c ∈ n :: rest.map Frame.node := by simpa [stackNodes] using h1
            show c ∈ k :: n :: List.map Frame.node rest
            exact List.mem_cons_of_mem _ h4
        · rcases hinv.fclosed f (List.mem_cons_of_mem _ h2) c hc with h1 | h1 | h1
          · exact Or.inl h1
          · exact Or.inr (Or.inl h1)
          · refine Or.inr (Or.inr ?_)
            have h4 : c ∈ n :: rest.map Frame.node := by simpa [stackNodes] using h1
            show c ∈ k :: n :: List.map Frame.node rest
            exact List.mem_cons_of_mem _ h4
    · rcases hinv.rootIn with h | h
      · exact Or.inl h
      · refine Or.inr ?_
        have h4 : root ∈ n :: rest.map Frame.node := by simpa [stackNodes] using h
        show root ∈ k :: n :: List.map Frame.node rest
        exact List.mem_cons_of_mem _ h4
  · have hkrange : k ∈ Finset.range g.n := Finset.mem_range.mpr hklt
    have hoc : ¬ (k ∈ stackNodes ⟨⟨n, k :: ks⟩ :: rest, hist, cyc⟩ ∨ k ∈ hist) := by
      intro hmem
      rcases hmem with h | h
      · exact hks (by simpa [stackNodes] using h)
      · exact hkh h
    have hnc : k ∈ stackNodes ⟨⟨k, children g k⟩ :: ⟨n, ks⟩ :: rest, hist, cyc⟩ ∨ k ∈ hist := by
      left
      simp [stackNodes]
    have hcongr : Finset.sum ((Finset.range g.n).erase k)
          (fun x => if x ∈ stackNodes ⟨⟨n, k :: ks⟩ :: rest, hist, cyc⟩ ∨ x ∈ hist
            then 0 else pot g x)
        = Finset.sum ((Finset.range g.n).erase k)
          (fun x => if x ∈ stackNodes ⟨⟨k, children g k⟩ :: ⟨n, ks⟩ :: rest, hist, cyc⟩
              ∨ x ∈ hist then 0 else pot g x) := by
      refine Finset.sum_congr rfl ?_
      intro x hx
      have hxk : x ≠ k := (Finset.mem_erase.mp hx).1
      refine if_congr ?_ rfl rfl
      simp [stackNodes, List.mem_cons, hxk]
    have hfold : freshPot g ⟨⟨n, k :: ks⟩ :: rest, hist, cyc⟩
        = pot g k + Finset.sum ((Finset.range g.n).erase k)
            (fun x => if x ∈ stackNodes ⟨⟨n, k :: ks⟩ :: rest, hist, cyc⟩ ∨ x ∈ hist
              then 0 else pot g x) := by
      unfold freshPot
      rw [← Finset.add_sum_erase _ _ hkrange]
      rw [if_neg hoc]
    have hfnew : freshPot g ⟨⟨k, children g k⟩ :: ⟨n, ks⟩ :: rest, hist, cyc⟩
        = Finset.sum ((Finset.range g.n).erase k)
            (fun x => if x ∈ stackNodes ⟨⟨k, children g k⟩ :: ⟨n, ks⟩ :: rest, hist, cyc⟩
              ∨ x ∈ hist then 0 else pot g x) := by
      unfold freshPot
      rw [← Finset.add_sum_erase _ _ hkrange]
      rw [if_pos hnc, Nat.zero_add]
    have hsw : stackWeight ⟨⟨k, children g k⟩ :: ⟨n, ks⟩ :: rest, hist, cyc⟩
        = stackWeight ⟨⟨n, k :: ks⟩ :: rest, hist, cyc⟩ + (children g k).length := by
      simp [stackWeight]
      omega
    have hpot : pot g k = 1 + (children g k).length := rfl
    unfold wMeasure
    omega

/-- Popping an exhausted frame and emitting its node preserves the
invariant and strictly decreases the measure. -/
theorem emit_preserves (g : Graph) (root n : Nat) (rest : List Frame) (hist cyc : List Nat)
    (hinv : WInv g root ⟨⟨n, []⟩ :: rest, hist, cyc⟩) :
    WInv g root ⟨rest, hist ++ [n], cyc⟩
    ∧ wMeasure g ⟨rest, hist ++ [n], cyc⟩
        < wMeasure g ⟨⟨n, []⟩ :: rest, hist, cyc⟩ := by
  constructor
  · refine ⟨?_, ?_, ?_, ?_, ?_⟩
    · intro f hf
      exact hinv.kidsLt f (List.mem_cons_of_mem _ hf)
    · have := hinv.nodup
      simp only [stackNodes, List.map_cons] at this
      simpa [stackNodes, List.append_assoc] using this
    · intro x hx c hc
      rcases List.mem_append.mp hx with hx1 | hx1
      · rcases hinv.hclosed x hx1 c hc with h | h
        · exact Or.inl (List.mem_append_left _ h)
        · have : c ∈ n :: rest.map Frame.node := by simpa [stackNodes] using h
          rcases List.mem_cons.mp this with h2 | h2
          · subst h2
            exact Or.inl (List.mem_append_right _ (List.mem_singleton.mpr rfl))
          · exact Or.inr (by simpa [stackNodes] using h2)
      · have hxn : x = n := List.mem_singleton.mp hx1
        subst hxn
        rcases hinv.fclosed ⟨x, []⟩ (List.mem_cons_self _ _) c hc with h | h | h
        · cases h
        · exact Or.inl (List.mem_append_left _ h)
        · have : c ∈ x :: rest.map Frame.node := by simpa [stackNodes] using h
          rcases List.mem_cons.mp this with h2 | h2
          · subst h2
            exact Or.inl (List.mem_append_right _ (List.mem_singleton.mpr rfl))
          · exact Or.inr (by simpa [stackNodes] using h2)
    · intro f hf c hc
      rcases hinv.fclosed f (List.mem_cons_of_mem _ hf) c hc with h | h | h
      · exact Or.inl h
      · exact Or.inr (Or.inl (List.mem_append_left _ h))
      · have : c ∈ n :: rest.map Frame.node := by simpa [stackNodes] using h
        rcases List.mem_cons.mp this with h2 | h2
        · subst h2
          exact Or.inr (Or.inl (List.mem_append_right _ (List.mem_singleton.mpr rfl)))
        · exact Or.inr (Or.inr (by simpa [stackNodes] using h2))
    · rcases hinv.rootIn with h | h
      · exact Or.inl (List.mem_append_left _ h)
      · have : root ∈ n :: rest.map Frame.node := by simpa [stackNodes] using h
        rcases List.mem_cons.mp this with h2 | h2
        · subst h2
          exact Or.inl (List.mem_append_right _ (List.mem_singleton.mpr rfl))
        · exact Or.inr (by simpa [stackNodes] using h2)
  · have hfp : freshPot g ⟨rest, hist ++ [n], cyc⟩
        = freshPot g ⟨⟨n, []⟩ :: rest, hist, cyc⟩ := by
      unfold freshPot
      refine Finset.sum_congr rfl ?_
      intro x _
      refine if_congr ?_ rfl rfl
      simp only [stackNodes, List.map_cons, List.mem_cons, List.mem_append,
        List.mem_singleton, List.mem_nil_iff]
      tauto
    have hsw : stackWeight ⟨⟨n, []⟩ :: rest, hist, cyc⟩
        = stackWeight ⟨rest, hist ++ [n], cyc⟩ + 1 := by
      simp [stackWeight]
      omega
    unfold wMeasure
    omega

/-- Every elementary Walker transition preserves the invariant and
strictly decreases the measure; the traversal reports done only with an
empty stack. -/
theorem step_preserves (g : Graph) (root : Nat)
    (hwf : ∀ x, x < g.n → ∀ c ∈ children g x, c < g.n)
    (st : WalkerState) (hinv : WInv g root st) :
    (step g st = StepRes.done → st.stack = [])
    ∧ (∀ m st', step g st = StepRes.emit m st'
        → WInv g root st' ∧ wMeasure g st' < wMeasure g st)
    ∧ (∀ st', step g st = StepRes.cont st'
        → WInv g root st' ∧ wMeasure g st' < wMeasure g st) := by
  obtain ⟨stk, hist, cyc⟩ := st
  cases stk with
  | nil =>
    refine ⟨fun _ => rfl, ?_, ?_⟩
    · intro m st' h; simp [step] at h
    · intro st' h; simp [step] at h
  | cons fr rest =>
    obtain ⟨n, ks⟩ := fr
    cases ks with
    | nil =>
      refine ⟨?_, ?_, ?_⟩
      · intro h; simp [step] at h
      · intro m st' h
        simp only [step, StepRes.emit.injEq] at h
        obtain ⟨hm, hst⟩ := h
        subst hm
        subst hst
        exact emit_preserves g root n rest hist cyc hinv
      · intro st' h; simp [step] at h
    | cons k ks =>
      by_cases hk1 : k ∈ n :: rest.map Frame.node
      · have hstep : step g ⟨⟨n, k :: ks⟩ :: rest, hist, cyc⟩
            = StepRes.cont ⟨⟨n, ks⟩ :: rest, hist, cyc ++ [k]⟩ := by
          simp only [step, List.map_cons]
          rw [if_pos hk1]
        refine ⟨?_, ?_, ?_⟩
        · intro h; rw [hstep] at h; exact StepRes.noConfusion h
        · intro m st' h; rw [hstep] at h; exact StepRes.noConfusion h
        · intro st' h
          rw [hstep] at h
          injection h with h1
          subst h1
          exact shrink_preserves g root n ks k rest hist cyc (cyc ++ [k]) hinv (Or.inl hk1)
      · by_cases hk2 : k ∈ hist
        · have hstep : step g ⟨⟨n, k :: ks⟩ :: rest, hist, cyc⟩
              = StepRes.cont ⟨⟨n, ks⟩ :: rest, hist, cyc⟩ := by
            simp only [step, List.map_cons]
            rw [if_neg hk1, if_pos hk2]
          refine ⟨?_, ?_, ?_⟩
          · intro h; rw [hstep] at h; exact StepRes.noConfusion h
          · intro m st' h; rw [hstep] at h; exact StepRes.noConfusion h
          · intro st' h
            rw [hstep] at h
            injection h with h1
            subst h1
            exact shrink_preserves g root n ks k rest hist cyc cyc hinv (Or.inr hk2)
        · have hstep : step g ⟨⟨n, k :: ks⟩ :: rest, hist, cyc⟩
              = StepRes.cont ⟨⟨k, children g k⟩ :: ⟨n, ks⟩ :: rest, hist, cyc⟩ := by
            simp only [step, List.map_cons]
            rw [if_neg hk1, if_neg hk2]
          refine ⟨?_, ?_, ?_⟩
          · intro h; rw [hstep] at h; exact StepRes.noConfusion h
          · intro m st' h; rw [hstep] at h; exact StepRes.noConfusion h
          · intro st' h
            rw [hstep] at h
            injection h with h1
            subst h1
            exact push_preserves g root n ks k rest hist cyc hwf hinv hk1 hk2

/-- Given fuel at least the measure, the Walker run empties its stack
and the invariant holds at the final state. -/
theorem runWalker_reaches_done (g : Graph) (root : Nat)
    (hwf : ∀ x, x < g.n → ∀ c ∈ children g x, c < g.n) :
    ∀ (fuel : Nat) (st : WalkerState), WInv g root st → wMeasure g st ≤ fuel →
      (runWalker g fuel st).stack = [] ∧ WInv g root (runWalker g fuel st) := by
  intro fuel
  induction fuel with
  | zero =>
    intro st hinv hm
    have hme : wMeasure g st = 0 := Nat.le_zero.mp hm
    have hsw : stackWeight st = 0 := by
      unfold wMeasure at hme
      omega
    have hstk : st.stack = [] := by
      obtain ⟨stk, hist, cyc⟩ := st
      cases stk with
      | nil => rfl
      | cons fr rest =>
        exfalso
        have hcons : stackWeight ⟨fr :: rest, hist, cyc⟩
            = (1 + fr.wkids.length)
              + (rest.map (fun f => 1 + f.wkids.length)).sum := by
          simp [stackWeight]
        rw [hcons] at hsw
        omega
    exact ⟨by simpa [runWalker] using hstk, by simpa [runWalker] using hinv⟩
  | succ f ih =>
    intro st hinv hm
    cases hstep : step g st with
    | done =>
      have hstk := (step_preserves g root hwf st hinv).1 hstep
      exact ⟨by simpa [runWalker, hstep] using hstk, by simpa [runWalker, hstep] using hinv⟩
    | emit m st' =>
      have h := (step_preserves g root hwf st hinv).2.1 m st' hstep
      have hrw : runWalker g (f + 1) st = runWalker g f st' := by
        simp [runWalker, hstep]
      rw [hrw]
      exact ih st' h.1 (by omega)
    | cont st' =>
      have h := (step_preserves g root hwf st hinv).2.2 st' hstep
      have hrw : runWalker g (f + 1) st = runWalker g f st' := by
        simp [runWalker, hstep]
      rw [hrw]
      exact ih st' h.1 (by omega)

/-- Once the stack is empty, a further `get_next()` call returns the
no-node sentinel. -/
theorem get_next_done (g : Graph) (st : WalkerState) (h : st.stack = []) :
    (get_next g 1 st).1 = none := by
  obtain ⟨stk, hist, cyc⟩ := st
  have hstk : stk = [] := h
  subst hstk
  rfl

/-- Reachability in the Node graph along `children` edges. -/
inductive Reach (g : Graph) (root : Nat) : Nat → Prop where
  | refl : Reach g root root
  | child {x y : Nat} : Reach g root x → y ∈ children g x → Reach g root y

/-- Claim C2: for every finite Node graph — cyclic or not — the
Walker's sequence of `get_next()` calls terminates: with enough fuel
the run empties its stack, `is_done` becomes true and a further
`get_next()` returns the sentinel; every node reachable from the root
(in particular every acyclic-reachable one) is enumerated exactly once
(the emission history contains each reachable node and is
duplicate-free).  On the concrete introduced cycle of the test
(`n3 → n6/n7`, `n7 → n8`, `n8 → n3`) the walk from `n3` emits exactly
`n6, n8, n7, n3`, and `cycle_func` is invoked exactly once, on the
revisit of the on-stack node `n3`. -/
theorem walker_terminates_on_cycles :
    (∀ (g : Graph) (root : Nat),
      (∀ x, x < g.n → ∀ c ∈ children g x, c < g.n) → root < g.n →
      ∃ fuel : Nat,
        is_done (runWalker g fuel (initWalker g root)) = true
        ∧ (get_next g 1 (runWalker g fuel (initWalker g root))).1 = none
        ∧ (runWalker g fuel (initWalker g root)).history.Nodup
        ∧ ∀ x, Reach g root x → x ∈ (runWalker g fuel (initWalker g root)).history)
    ∧ (runWalker gcyc 64 (initWalker gcyc 3)).history = [6, 8, 7, 3]
    ∧ (runWalker gcyc 64 (initWalker gcyc 3)).cycles = [3]
    ∧ is_done (runWalker gcyc 64 (initWalker gcyc 3)) = true := by
  refine ⟨?_, by decide, by decide, by decide⟩
  intro g root hwf hroot
  refine ⟨wMeasure g (initWalker g root), ?_⟩
  have h0 := initWalker_inv g root hwf hroot
  obtain ⟨hstk, hinvf⟩ := runWalker_reaches_done g root hwf
    (wMeasure g (initWalker g root)) (initWalker g root) h0 (Nat.le_refl _)
  refine ⟨?_, get_next_done g _ hstk, ?_, ?_⟩
  · simp [is_done, hstk]
  · have := hinvf.nodup
    simpa [stackNodes, hstk] using this
  · intro x hx
    induction hx with
    | refl =>
      rcases hinvf.rootIn with h | h
      · exact h
      · simp [stackNodes, hstk] at h
    | child hr hc ihx =>
      rcases hinvf.hclosed _ ihx _ hc with h | h
      · exact h
      · simp [stackNodes, hstk] at h

/-- Witness for C2: the general termination-and-enumeration statement
applied to the concrete cyclic test graph rooted at `n3`. -/
theorem walker_terminates_on_cycles_witness :
    ∃ fuel : Nat,
      is_done (runWalker gcyc fuel (initWalker gcyc 3)) = true
      ∧ (get_next gcyc 1 (runWalker gcyc fuel (initWalker gcyc 3))).1 = none
      ∧ (runWalker gcyc fuel (initWalker gcyc 3)).history.Nodup
      ∧ ∀ x, Reach gcyc 3 x → x ∈ (runWalker gcyc fuel (initWalker gcyc 3)).history :=
  walker_terminates_on_cycles.1 gcyc 3 (by decide) (by decide)

end SCons
